import Mathlib

/-!
Verification of the jonalmeida/bloom-filter repository (Rust).

Shallow embedding of the three source files:
* `src/src/bit_vec.rs`   — packed bit vector with bounds-checked ops;
* `src/murmur.rs`        — seeded 32-bit murmur3 hash;
* `src/src/lib.rs`       — the bloom filter driver.

Conventions of the embedding:
* A `u8` byte is a `Nat` (all values produced stay below 256, and the
  bitwise operations used never need that bound).
* `u32` arithmetic is `Nat` arithmetic reduced `% 2^32` at each
  wrapping operation.
* A Rust `panic!` (bounds check, index out of bounds, or `%` by zero)
  is `Option.none`; successful execution is `Option.some`.
* `f64` values in `BloomFilter::new` are modelled as real numbers; the
  Rust saturating cast `.ceil() as usize` of a finite value becomes
  `(Int.ceil x).toNat`, which also agrees with the Rust NaN-to-0 cast
  on the one NaN the code can produce (`0.0 / 0.0`, which the real
  model evaluates as `0 / 0 = 0`).
-/

namespace BloomRs

/-- Embedding of `BitVec` from `src/src/bit_vec.rs`: a byte buffer plus
the recorded bit size used for bounds checking. -/
structure BitVec where
  bits : List Nat
  size : Nat
deriving DecidableEq, Repr

namespace BitVec

/-- Embedding of `BitVec::new` (`bit_vec.rs` lines 18-23): note the
source allocates `vec![0u8; size]`, i.e. `size` bytes. -/
def new (size : Nat) : BitVec :=
  { bits := List.replicate size 0, size := size }

/-- Embedding of `BitVec::is_set` (`bit_vec.rs` lines 25-34).  The
bounds check rejects only `pos > size`; the subsequent byte index
`self.bits[pos / 8]` panics when it is out of range of the buffer. -/
def is_set (v : BitVec) (pos : Nat) : Option Bool :=
  if pos > v.size then none
  else if pos / 8 < v.bits.length then
    some (decide (1 <<< (pos % 8) &&& v.bits.getD (pos / 8) 0 > 0))
  else none

/-- Embedding of `BitVec::set` (`bit_vec.rs` lines 37-42):
read-modify-write with bitwise OR on the affected byte. -/
def set (v : BitVec) (pos : Nat) : Option BitVec :=
  if pos > v.size then none
  else if pos / 8 < v.bits.length then
    some { bits := v.bits.set (pos / 8) (v.bits.getD (pos / 8) 0 ||| 1 <<< (pos % 8)),
           size := v.size }
  else none

/-- Embedding of `BitVec::unset` (`bit_vec.rs` lines 46-53):
read-modify-write with AND against the inverted mask `0xFF ^ (1 << (pos % 8))`. -/
def unset (v : BitVec) (pos : Nat) : Option BitVec :=
  if pos > v.size then none
  else if pos / 8 < v.bits.length then
    some { bits := v.bits.set (pos / 8) (v.bits.getD (pos / 8) 0 &&& (0xFF ^^^ 1 <<< (pos % 8))),
           size := v.size }
  else none

/-- Embedding of `BitVec::flip` (`bit_vec.rs` lines 58-63):
read-modify-write with XOR on the affected byte. -/
def flip (v : BitVec) (pos : Nat) : Option BitVec :=
  if pos > v.size then none
  else if pos / 8 < v.bits.length then
    some { bits := v.bits.set (pos / 8) (v.bits.getD (pos / 8) 0 ^^^ 1 <<< (pos % 8)),
           size := v.size }
  else none

/-- Embedding of `BitVec::get_bytes` (`bit_vec.rs` lines 67-69). -/
def get_bytes (v : BitVec) : List Nat :=
  v.bits

end BitVec

/-! ## The murmur3 hash (`src/murmur.rs`) -/

/-- 2^32, the modulus of wrapping `u32` arithmetic. -/
def u32Mod : Nat := 4294967296

/-- Embedding of `key_bytes_to_u32_chunk` (`murmur.rs` lines 64-97):
little-endian read of one to four bytes, zero for any other length. -/
def key_bytes_to_u32_chunk (bytes : List Nat) : Nat :=
  match bytes with
  | [b0, b1, b2, b3] => (b3 <<< 24) + (b2 <<< 16) + (b1 <<< 8) + b0
  | [b0, b1, b2] => (b2 <<< 16) + (b1 <<< 8) + b0
  | [b0, b1] => (b1 <<< 8) + b0
  | [b0] => b0
  | _ => 0

/-- One full-chunk scramble of `murmur3_32_seeded`: multiply by `c1`,
rotate left 15, multiply by `c2` (wrapping 32-bit arithmetic). -/
def murmurScramble (chunk : Nat) : Nat :=
  let c := chunk * 0xcc9e2d51 % u32Mod
  let c := ((c <<< 15) ||| (c >>> 17)) % u32Mod
  c * 0x1b873593 % u32Mod

/-- The accumulator update applied after a full chunk: XOR the chunk
in, rotate left 13, multiply by 5 and add `0xe6546b64`. -/
def murmurRound (hash chunk : Nat) : Nat :=
  let h := hash ^^^ chunk
  let h := ((h <<< 13) ||| (h >>> 19)) % u32Mod
  (h * 5 + 0xe6546b64) % u32Mod

/-- The chunk loop of `murmur3_32_seeded` (`murmur.rs` lines 21-50):
full 4-byte chunks get the full round, a ragged 1-3 byte tail is only
XORed in, and an empty input skips the loop. -/
def murmurRounds : List Nat → Nat → Nat
  | [], hash => hash
  | b0 :: b1 :: b2 :: b3 :: rest, hash =>
    murmurRounds rest (murmurRound hash (murmurScramble (key_bytes_to_u32_chunk [b0, b1, b2, b3])))
  | bytes, hash => hash ^^^ murmurScramble (key_bytes_to_u32_chunk bytes)

/-- The avalanche finalization of `murmur3_32_seeded` (`murmur.rs`
lines 53-58). -/
def murmurFinalize (hash : Nat) : Nat :=
  let h := hash ^^^ (hash >>> 16)
  let h := h * 0x85ebca6b % u32Mod
  let h := h ^^^ (h >>> 13)
  let h := h * 0xc2b2ae35 % u32Mod
  h ^^^ (h >>> 16)

/-- Embedding of `murmur3_32_seeded` (`murmur.rs` lines 7-61).  The
key is its byte sequence; the seed is a `u32` (reduced mod 2^32). -/
def murmur3_32_seeded (key : List Nat) (seed : Nat) : Nat :=
  murmurFinalize (murmurRounds key (seed % u32Mod) ^^^ (key.length % u32Mod))

/-- Embedding of `murmur3_32` (`murmur.rs` line 101). -/
def murmur3_32 (key : List Nat) : Nat :=
  murmur3_32_seeded key 0

/-! ## The bloom filter (`src/src/lib.rs`) -/

/-- Embedding of `BloomFilter` (`lib.rs` lines 142-145): one owned bit
vector plus the number of hash rounds. -/
structure BloomFilter where
  bits : BitVec
  num_hashes : Nat
deriving DecidableEq, Repr

namespace BloomFilter

/-- The bit index `insert` and `maybe_present` both derive for a value
at hash round `i` (`lib.rs` lines 199 and 212): the seeded murmur hash,
reduced modulo `self.bits.size as u32`.  Defined only when the `u32`
truncation of the size is nonzero (Rust `%` by zero panics). -/
def bitIndex (value : List Nat) (size i : Nat) : Nat :=
  murmur3_32_seeded value (i % u32Mod) % (size % u32Mod)

/-- The loop of `BloomFilter::insert` (`lib.rs` lines 196-202): the
first argument counts the remaining iterations, the second is the
current hash round `i`, so `insertLoop value k 0 b` runs rounds
`0 .. k-1` exactly as `for i in 0..self.num_hashes` does.  One bit is
set per round; `none` models any panic (`%` by zero when the `u32`
truncation of the size is 0, or an out-of-bounds bit index). -/
def insertLoop (value : List Nat) : Nat → Nat → BitVec → Option BitVec
  | 0, _, b => some b
  | rem + 1, i, b =>
    if b.size % u32Mod = 0 then none
    else
      match b.set (bitIndex value b.size i) with
      | none => none
      | some b2 => insertLoop value rem (i + 1) b2

/-- Embedding of `BloomFilter::insert` (`lib.rs` lines 196-202). -/
def insert (f : BloomFilter) (value : List Nat) : Option BloomFilter :=
  match insertLoop value f.num_hashes 0 f.bits with
  | none => none
  | some b => some { bits := b, num_hashes := f.num_hashes }

/-- The loop of `BloomFilter::maybe_present` (`lib.rs` lines 210-219),
with the same remaining-iterations/current-round encoding as
`insertLoop`: return `false` as soon as one derived bit is unset,
`true` when all rounds find their bit set. -/
def maybeLoop (value : List Nat) (b : BitVec) : Nat → Nat → Option Bool
  | 0, _ => some true
  | rem + 1, i =>
    if b.size % u32Mod = 0 then none
    else
      match b.is_set (bitIndex value b.size i) with
      | none => none
      | some false => some false
      | some true => maybeLoop value b rem (i + 1)

/-- Embedding of `BloomFilter::maybe_present` (`lib.rs` lines 210-219). -/
def maybe_present (f : BloomFilter) (value : List Nat) : Option Bool :=
  maybeLoop value f.bits f.num_hashes 0

/-- A sequence of `insert` calls, used to state stability of
`maybe_present` under arbitrary subsequent insertions. -/
def insertAll (f : BloomFilter) : List (List Nat) → Option BloomFilter
  | [] => some f
  | w :: ws =>
    match f.insert w with
    | none => none
    | some g => insertAll g ws

/-- The bit count `m` computed by `BloomFilter::new` (`lib.rs` lines
179-180): `((-1.0 * n * ln p) / ln(2)^2).ceil() as usize`, with the
`f64` arithmetic idealized over the reals and the saturating cast
modelled by `Int.toNat` of the ceiling. -/
noncomputable def bloomM (expected_inserts : Nat) (fpr : ℝ) : Nat :=
  (Int.ceil ((-1 * (expected_inserts : ℝ) * Real.log fpr) / Real.log 2 ^ 2)).toNat

/-- The hash count `k` computed by `BloomFilter::new` (`lib.rs` line
182): `((m / n) * ln 2).ceil() as usize`.  For `n = 0` the Rust code
computes `0.0 / 0.0 = NaN` and `NaN as usize = 0`; the real model's
`0 / 0 = 0` yields the same result. -/
noncomputable def bloomK (expected_inserts : Nat) (fpr : ℝ) : Nat :=
  (Int.ceil (((bloomM expected_inserts fpr : ℝ) / (expected_inserts : ℝ)) * Real.log 2)).toNat

/-- Embedding of `BloomFilter::new` (`lib.rs` lines 164-189): panic
(`none`) when `fpr <= 0.0`, otherwise size the bit vector and the hash
count from the closed-form formulas. -/
noncomputable def new (expected_inserts : Nat) (fpr : ℝ) : Option BloomFilter :=
  if fpr ≤ 0 then none
  else some { bits := BitVec.new (bloomM expected_inserts fpr),
              num_hashes := bloomK expected_inserts fpr }

end BloomFilter

/-! ## Helper lemmas: bytes and bit masks -/

/-- The membership test the source performs on a byte,
`(1 << n) & b > 0`, is exactly `Nat.testBit`. -/
theorem decide_mask_and (n b : Nat) :
    decide (1 <<< n &&& b > 0) = b.testBit n := by
  rw [Nat.one_shiftLeft, Nat.two_pow_and]
  cases h : b.testBit n <;> simp [h, Nat.pos_pow_of_pos]

/-- ORing a mask into a byte whose bit is already on leaves the byte
unchanged. -/
theorem or_mask_of_testBit {b : Nat} {n : Nat} (h : b.testBit n = true) :
    b ||| 1 <<< n = b := by
  rw [Nat.one_shiftLeft]
  apply Nat.eq_of_testBit_eq
  intro j
  rw [Nat.testBit_or]
  by_cases hj : j = n
  · subst hj; simp [h, Nat.testBit_two_pow_self]
  · simp [Nat.testBit_two_pow_of_ne (fun hnj => hj hnj.symm)]

/-- The byte mask `0xFF ^ (1 << n)` used by `unset` has bit `n` off. -/
theorem testBit_unset_mask_self {n : Nat} (h : n < 8) :
    (0xFF ^^^ 1 <<< n).testBit n = false := by
  have h255 : (0xFF : Nat) = 2 ^ 8 - 1 := by norm_num
  rw [Nat.one_shiftLeft, h255, Nat.testBit_xor, Nat.testBit_two_pow_sub_one,
    Nat.testBit_two_pow_self]
  simp [h]

/-- The byte mask `0xFF ^ (1 << n)` keeps every other low bit on. -/
theorem testBit_unset_mask_ne {n j : Nat} (hj : j < 8) (hne : j ≠ n) :
    (0xFF ^^^ 1 <<< n).testBit j = true := by
  have h255 : (0xFF : Nat) = 2 ^ 8 - 1 := by norm_num
  rw [Nat.one_shiftLeft, h255, Nat.testBit_xor, Nat.testBit_two_pow_sub_one,
    Nat.testBit_two_pow_of_ne (fun hnj => hne hnj.symm)]
  simp [hj]

/-- Writing back the byte a list already holds is the identity. -/
theorem list_set_getD_self {l : List Nat} {i : Nat} (h : i < l.length) :
    l.set i (l.getD i 0) = l := by
  apply List.ext_getElem?
  intro n
  by_cases hn : n = i
  · subst hn
    rw [List.getElem?_set_self h, List.getD_eq_getElem?_getD,
      List.getElem?_eq_getElem h]
    rfl
  · rw [List.getElem?_set_ne (fun hni => hn hni.symm)]

/-- `getD` after `set` at the written index. -/
theorem list_getD_set_self {l : List Nat} {i x : Nat} (h : i < l.length) :
    (l.set i x).getD i 0 = x := by
  rw [List.getD_eq_getElem?_getD, List.getElem?_set_self h]
  rfl

/-- `getD` after `set` at any other index. -/
theorem list_getD_set_ne {l : List Nat} {i j x : Nat} (h : j ≠ i) :
    (l.set i x).getD j 0 = l.getD j 0 := by
  rw [List.getD_eq_getElem?_getD, List.getElem?_set_ne (fun hij => h hij.symm),
    List.getD_eq_getElem?_getD]

/-- Two distinct bit positions in the same byte have distinct offsets. -/
theorem mod_ne_of_div_eq {pos q : Nat} (hne : q ≠ pos) (hdiv : q / 8 = pos / 8) :
    q % 8 ≠ pos % 8 := by omega

/-! ## Helper lemmas: the four `BitVec` operations -/

namespace BitVec

/-- Inversion principle for `is_set`. -/
theorem is_set_eq_some_iff {v : BitVec} {pos : Nat} {r : Bool} :
    v.is_set pos = some r ↔
      pos ≤ v.size ∧ pos / 8 < v.bits.length ∧
        r = (v.bits.getD (pos / 8) 0).testBit (pos % 8) := by
  by_cases h1 : pos > v.size
  · simp [is_set, h1]
  · by_cases h2 : pos / 8 < v.bits.length
    · simp [is_set, h1, h2, decide_mask_and, Nat.le_of_not_lt h1, eq_comm]
    · simp [is_set, h1, h2]

/-- Inversion principle for `set`. -/
theorem set_eq_some_iff {v : BitVec} {pos : Nat} {w : BitVec} :
    v.set pos = some w ↔
      pos ≤ v.size ∧ pos / 8 < v.bits.length ∧
        w = { bits := v.bits.set (pos / 8) (v.bits.getD (pos / 8) 0 ||| 1 <<< (pos % 8)),
              size := v.size } := by
  by_cases h1 : pos > v.size
  · simp [set, h1]
  · by_cases h2 : pos / 8 < v.bits.length
    · simp [set, h1, h2, Nat.le_of_not_lt h1, eq_comm]
    · simp [set, h1, h2]

/-- Inversion principle for `unset`. -/
theorem unset_eq_some_iff {v : BitVec} {pos : Nat} {w : BitVec} :
    v.unset pos = some w ↔
      pos ≤ v.size ∧ pos / 8 < v.bits.length ∧
        w = { bits := v.bits.set (pos / 8)
                (v.bits.getD (pos / 8) 0 &&& (0xFF ^^^ 1 <<< (pos % 8))),
              size := v.size } := by
  by_cases h1 : pos > v.size
  · simp [unset, h1]
  · by_cases h2 : pos / 8 < v.bits.length
    · simp [unset, h1, h2, Nat.le_of_not_lt h1, eq_comm]
    · simp [unset, h1, h2]

/-- Inversion principle for `flip`. -/
theorem flip_eq_some_iff {v : BitVec} {pos : Nat} {w : BitVec} :
    v.flip pos = some w ↔
      pos ≤ v.size ∧ pos / 8 < v.bits.length ∧
        w = { bits := v.bits.set (pos / 8) (v.bits.getD (pos / 8) 0 ^^^ 1 <<< (pos % 8)),
              size := v.size } := by
  by_cases h1 : pos > v.size
  · simp [flip, h1]
  · by_cases h2 : pos / 8 < v.bits.length
    · simp [flip, h1, h2, Nat.le_of_not_lt h1, eq_comm]
    · simp [flip, h1, h2]

/-- A successful `set` preserves the recorded size and buffer length. -/
theorem set_dims {v w : BitVec} {pos : Nat} (h : v.set pos = some w) :
    w.size = v.size ∧ w.bits.length = v.bits.length := by
  obtain ⟨-, -, rfl⟩ := set_eq_some_iff.mp h
  simp

/-- After a successful `set pos`, bit `pos` reads back as set. -/
theorem is_set_of_set {v w : BitVec} {pos : Nat} (h : v.set pos = some w) :
    w.is_set pos = some true := by
  obtain ⟨h1, h2, rfl⟩ := set_eq_some_iff.mp h
  refine is_set_eq_some_iff.mpr ⟨h1, by simpa using h2, ?_⟩
  rw [list_getD_set_self h2, Nat.testBit_or, Nat.one_shiftLeft,
    Nat.testBit_two_pow_self]
  simp

/-- `set` never turns a set bit off (monotonicity, any position). -/
theorem is_set_mono_of_set {v w : BitVec} {pos q : Nat} (h : v.set pos = some w)
    (hq : v.is_set q = some true) : w.is_set q = some true := by
  obtain ⟨h1, h2, rfl⟩ := set_eq_some_iff.mp h
  obtain ⟨hq1, hq2, hqb⟩ := is_set_eq_some_iff.mp hq
  refine is_set_eq_some_iff.mpr ⟨hq1, by simpa using hq2, ?_⟩
  by_cases hj : q / 8 = pos / 8
  · rw [hj, list_getD_set_self h2, Nat.testBit_or, ← hj, ← hqb]
    simp
  · rw [list_getD_set_ne hj]
    exact hqb

/-- Setting a bit that is already set returns the vector unchanged. -/
theorem set_of_is_set_true {v : BitVec} {pos : Nat} (h : v.is_set pos = some true) :
    v.set pos = some v := by
  obtain ⟨h1, h2, hb⟩ := is_set_eq_some_iff.mp h
  refine set_eq_some_iff.mpr ⟨h1, h2, ?_⟩
  rw [or_mask_of_testBit hb.symm, list_set_getD_self h2]

/-- After a successful `unset pos`, bit `pos` reads back as clear. -/
theorem is_set_of_unset {v w : BitVec} {pos : Nat} (h : v.unset pos = some w) :
    w.is_set pos = some false := by
  obtain ⟨h1, h2, rfl⟩ := unset_eq_some_iff.mp h
  refine is_set_eq_some_iff.mpr ⟨h1, by simpa using h2, ?_⟩
  rw [list_getD_set_self h2, Nat.testBit_and,
    testBit_unset_mask_self (Nat.mod_lt _ (by norm_num))]
  simp

/-- Flipping the same bit twice restores the vector. -/
theorem flip_flip {v w w2 : BitVec} {pos : Nat} (h : v.flip pos = some w)
    (h2 : w.flip pos = some w2) : w2 = v := by
  obtain ⟨ha1, ha2, rfl⟩ := flip_eq_some_iff.mp h
  obtain ⟨hb1, hb2, rfl⟩ := flip_eq_some_iff.mp h2
  simp only [List.set_set, list_getD_set_self ha2]
  rw [Nat.xor_assoc, Nat.xor_self, Nat.xor_zero, list_set_getD_self ha2]

/-- `set pos` leaves every other bit's `is_set` answer unchanged. -/
theorem is_set_frame_of_set {v w : BitVec} {pos q : Nat} (h : v.set pos = some w)
    (hne : q ≠ pos) : w.is_set q = v.is_set q := by
  obtain ⟨h1, h2, rfl⟩ := set_eq_some_iff.mp h
  by_cases hq1 : q > v.size
  · simp [is_set, hq1]
  · by_cases hq2 : q / 8 < v.bits.length
    · simp only [is_set, hq1, if_false, List.length_set, hq2, if_true]
      congr 1
      by_cases hj : q / 8 = pos / 8
      · rw [hj, list_getD_set_self h2, ← hj, decide_mask_and, decide_mask_and,
          Nat.testBit_or, Nat.one_shiftLeft,
          Nat.testBit_two_pow_of_ne (fun hmm => mod_ne_of_div_eq hne hj hmm.symm)]
        simp
      · rw [list_getD_set_ne hj]
    · simp [is_set, hq1, hq2]

/-- `unset pos` leaves every other bit's `is_set` answer unchanged. -/
theorem is_set_frame_of_unset {v w : BitVec} {pos q : Nat} (h : v.unset pos = some w)
    (hne : q ≠ pos) : w.is_set q = v.is_set q := by
  obtain ⟨h1, h2, rfl⟩ := unset_eq_some_iff.mp h
  by_cases hq1 : q > v.size
  · simp [is_set, hq1]
  · by_cases hq2 : q / 8 < v.bits.length
    · simp only [is_set, hq1, if_false, List.length_set, hq2, if_true]
      congr 1
      by_cases hj : q / 8 = pos / 8
      · rw [hj, list_getD_set_self h2, ← hj, decide_mask_and, decide_mask_and,
          Nat.testBit_and,
          testBit_unset_mask_ne (Nat.mod_lt _ (by norm_num))
            (mod_ne_of_div_eq hne hj)]
        simp
      · rw [list_getD_set_ne hj]
    · simp [is_set, hq1, hq2]

/-- `flip pos` leaves every other bit's `is_set` answer unchanged. -/
theorem is_set_frame_of_flip {v w : BitVec} {pos q : Nat} (h : v.flip pos = some w)
    (hne : q ≠ pos) : w.is_set q = v.is_set q := by
  obtain ⟨h1, h2, rfl⟩ := flip_eq_some_iff.mp h
  by_cases hq1 : q > v.size
  · simp [is_set, hq1]
  · by_cases hq2 : q / 8 < v.bits.length
    · simp only [is_set, hq1, if_false, List.length_set, hq2, if_true]
      congr 1
      by_cases hj : q / 8 = pos / 8
      · rw [hj, list_getD_set_self h2, ← hj, decide_mask_and, decide_mask_and,
          Nat.testBit_xor, Nat.one_shiftLeft,
          Nat.testBit_two_pow_of_ne (fun hmm => mod_ne_of_div_eq hne hj hmm.symm)]
        simp
      · rw [list_getD_set_ne hj]
    · simp [is_set, hq1, hq2]

end BitVec

/-! ## Helper lemmas: the bloom filter loops -/

namespace BloomFilter

/-- A successful `insertLoop` preserves the bit vector's dimensions. -/
theorem insertLoop_dims {value : List Nat} :
    ∀ rem i : Nat, ∀ b b2 : BitVec, insertLoop value rem i b = some b2 →
      b2.size = b.size ∧ b2.bits.length = b.bits.length := by
  intro rem
  induction rem with
  | zero =>
    intro i b b2 h
    simp only [insertLoop] at h
    obtain rfl := Option.some.inj h
    exact ⟨rfl, rfl⟩
  | succ rem ih =>
    intro i b b2 h
    simp only [insertLoop] at h
    split at h
    · exact absurd h (by simp)
    · cases hset : b.set (bitIndex value b.size i) with
      | none => rw [hset] at h; exact absurd h (by simp)
      | some b3 =>
        rw [hset] at h
        obtain ⟨hs, hl⟩ := BitVec.set_dims hset
        obtain ⟨hs2, hl2⟩ := ih (i + 1) b3 b2 h
        exact ⟨hs2.trans hs, hl2.trans hl⟩

/-- A successful `insertLoop` never clears a bit that was set. -/
theorem insertLoop_mono {value : List Nat} :
    ∀ rem i : Nat, ∀ b b2 : BitVec, insertLoop value rem i b = some b2 →
      ∀ q : Nat, b.is_set q = some true → b2.is_set q = some true := by
  intro rem
  induction rem with
  | zero =>
    intro i b b2 h q hq
    simp only [insertLoop] at h
    obtain rfl := Option.some.inj h
    exact hq
  | succ rem ih =>
    intro i b b2 h q hq
    simp only [insertLoop] at h
    split at h
    · exact absurd h (by simp)
    · cases hset : b.set (bitIndex value b.size i) with
      | none => rw [hset] at h; exact absurd h (by simp)
      | some b3 =>
        rw [hset] at h
        exact ih (i + 1) b3 b2 h q (BitVec.is_set_mono_of_set hset hq)

/-- After a successful `insertLoop`, every hash round it performed has
its derived bit set. -/
theorem insertLoop_sets {value : List Nat} :
    ∀ rem i : Nat, ∀ b b2 : BitVec, insertLoop value rem i b = some b2 →
      ∀ j : Nat, i ≤ j → j < i + rem →
        b2.is_set (bitIndex value b.size j) = some true := by
  intro rem
  induction rem with
  | zero => intro i b b2 h j hj1 hj2; omega
  | succ rem ih =>
    intro i b b2 h j hj1 hj2
    simp only [insertLoop] at h
    split at h
    · exact absurd h (by simp)
    · cases hset : b.set (bitIndex value b.size i) with
      | none => rw [hset] at h; exact absurd h (by simp)
      | some b3 =>
        rw [hset] at h
        rcases Nat.eq_or_lt_of_le hj1 with rfl | hj3
        · exact insertLoop_mono rem (i + 1) b3 b2 h _ (BitVec.is_set_of_set hset)
        · have hsz : b3.size = b.size := (BitVec.set_dims hset).1
          have := ih (i + 1) b3 b2 h j hj3 (by omega)
          rwa [hsz] at this

/-- A successful nonempty `insertLoop` entered the loop, so the `u32`
truncation of the size was nonzero. -/
theorem insertLoop_md {value : List Nat} {rem i : Nat} {b b2 : BitVec}
    (h : insertLoop value (rem + 1) i b = some b2) : b.size % u32Mod ≠ 0 := by
  simp only [insertLoop] at h
  intro hmd
  rw [if_pos hmd] at h
  exact absurd h (by simp)

/-- `insertLoop` over rounds whose bits are all already set returns the
vector unchanged. -/
theorem insertLoop_fixed {value : List Nat} :
    ∀ rem i : Nat, ∀ b : BitVec, (0 < rem → b.size % u32Mod ≠ 0) →
      (∀ j : Nat, i ≤ j → j < i + rem →
        b.is_set (bitIndex value b.size j) = some true) →
      insertLoop value rem i b = some b := by
  intro rem
  induction rem with
  | zero => intro i b _ _; simp [insertLoop]
  | succ rem ih =>
    intro i b hmd hbits
    simp only [insertLoop]
    rw [if_neg (hmd (Nat.succ_pos rem))]
    rw [BitVec.set_of_is_set_true (hbits i (Nat.le_refl i) (by omega))]
    exact ih (i + 1) b (fun _ => hmd (Nat.succ_pos rem))
      (fun j hj1 hj2 => hbits j (by omega) (by omega))

/-- `maybeLoop` answers `true` when every round it will perform has its
derived bit set. -/
theorem maybeLoop_true {value : List Nat} {b : BitVec} :
    ∀ rem i : Nat, (0 < rem → b.size % u32Mod ≠ 0) →
      (∀ j : Nat, i ≤ j → j < i + rem →
        b.is_set (bitIndex value b.size j) = some true) →
      maybeLoop value b rem i = some true := by
  intro rem
  induction rem with
  | zero => intro i _ _; simp [maybeLoop]
  | succ rem ih =>
    intro i hmd hbits
    simp only [maybeLoop]
    rw [if_neg (hmd (Nat.succ_pos rem))]
    rw [hbits i (Nat.le_refl i) (by omega)]
    exact ih (i + 1) (fun _ => hmd (Nat.succ_pos rem))
      (fun j hj1 hj2 => hbits j (by omega) (by omega))

/-- Inversion principle for `insert`. -/
theorem insert_eq_some_iff {f f1 : BloomFilter} {value : List Nat} :
    f.insert value = some f1 ↔
      ∃ b : BitVec, insertLoop value f.num_hashes 0 f.bits = some b ∧
        f1 = { bits := b, num_hashes := f.num_hashes } := by
  unfold insert
  cases h : insertLoop value f.num_hashes 0 f.bits <;> simp [eq_comm]

/-- A successful `insert` preserves the hash count and size, and never
clears a set bit. -/
theorem insert_mono {f f1 : BloomFilter} {value : List Nat}
    (h : f.insert value = some f1) :
    f1.num_hashes = f.num_hashes ∧ f1.bits.size = f.bits.size ∧
      ∀ q : Nat, f.bits.is_set q = some true → f1.bits.is_set q = some true := by
  obtain ⟨b, hloop, rfl⟩ := insert_eq_some_iff.mp h
  exact ⟨rfl, (insertLoop_dims _ _ _ _ hloop).1,
    fun q hq => insertLoop_mono _ _ _ _ hloop q hq⟩

/-- A successful `insertAll` preserves the hash count and size, and
never clears a set bit. -/
theorem insertAll_mono :
    ∀ ws : List (List Nat), ∀ g g2 : BloomFilter, insertAll g ws = some g2 →
      g2.num_hashes = g.num_hashes ∧ g2.bits.size = g.bits.size ∧
        ∀ q : Nat, g.bits.is_set q = some true → g2.bits.is_set q = some true := by
  intro ws
  induction ws with
  | nil =>
    intro g g2 h
    simp only [insertAll] at h
    obtain rfl := Option.some.inj h
    exact ⟨rfl, rfl, fun q hq => hq⟩
  | cons w ws ih =>
    intro g g2 h
    simp only [insertAll] at h
    cases hins : g.insert w with
    | none => rw [hins] at h; exact absurd h (by simp)
    | some g1 =>
      rw [hins] at h
      obtain ⟨hk1, hs1, hm1⟩ := insert_mono hins
      obtain ⟨hk2, hs2, hm2⟩ := ih g1 g2 h
      exact ⟨hk2.trans hk1, hs2.trans hs1, fun q hq => hm2 q (hm1 q hq)⟩

end BloomFilter

/-! ## Claim theorems -/

/-- C1: No false negatives.  For every bloom filter `f` and value `v`,
whenever `f.insert v` completes (returning `f1`) and any sequence `ws`
of subsequent inserts completes (returning `f2`), `f2.maybe_present v`
returns `true`. -/
theorem no_false_negatives (f : BloomFilter) (v : List Nat) (ws : List (List Nat))
    (f1 f2 : BloomFilter) (h1 : f.insert v = some f1)
    (h2 : BloomFilter.insertAll f1 ws = some f2) :
    f2.maybe_present v = some true := by
  obtain ⟨b1, hloop, rfl⟩ := BloomFilter.insert_eq_some_iff.mp h1
  have hdims := BloomFilter.insertLoop_dims f.num_hashes 0 f.bits b1 hloop
  have hsets := BloomFilter.insertLoop_sets f.num_hashes 0 f.bits b1 hloop
  obtain ⟨hk2, hs2, hm2⟩ := BloomFilter.insertAll_mono ws _ f2 h2
  unfold BloomFilter.maybe_present
  apply BloomFilter.maybeLoop_true
  · intro hk
    rw [hk2] at hk
    cases hknat : f.num_hashes with
    | zero => rw [hknat] at hk; omega
    | succ rem =>
      rw [hknat] at hloop
      have hmd := BloomFilter.insertLoop_md hloop
      rw [hs2, hdims.1]
      exact hmd
  · intro j hj1 hj2
    rw [hk2] at hj2
    have hbit := hsets j hj1 (by simpa using hj2)
    rw [hs2, hdims.1]
    exact hm2 _ hbit

/-- Witness for C1 at a concrete filter: two hash rounds over an
8-bit vector, inserting the bytes of "hi" and then of a second value. -/
theorem no_false_negatives_witness :
    ({ bits := BitVec.new 8, num_hashes := 2 } : BloomFilter).insert [104, 105] =
        some { bits := { bits := [12, 0, 0, 0, 0, 0, 0, 0], size := 8 }, num_hashes := 2 } ∧
      BloomFilter.insertAll
          { bits := { bits := [12, 0, 0, 0, 0, 0, 0, 0], size := 8 }, num_hashes := 2 } [[1]] =
        some { bits := { bits := [44, 0, 0, 0, 0, 0, 0, 0], size := 8 }, num_hashes := 2 } ∧
      BloomFilter.maybe_present
          { bits := { bits := [44, 0, 0, 0, 0, 0, 0, 0], size := 8 }, num_hashes := 2 }
          [104, 105] = some true :=
  ⟨by decide, by decide,
    no_false_negatives { bits := BitVec.new 8, num_hashes := 2 } [104, 105] [[1]]
      { bits := { bits := [12, 0, 0, 0, 0, 0, 0, 0], size := 8 }, num_hashes := 2 }
      { bits := { bits := [44, 0, 0, 0, 0, 0, 0, 0], size := 8 }, num_hashes := 2 }
      (by decide) (by decide)⟩

/-- C2 counterexample: on `BitVec::new(8)` the position `pos == size == 8`
does not fail: `is_set` silently answers `false` and the three mutating
operations silently succeed, because the check is `pos > size` and the
buffer holds `size` bytes. -/
theorem bounds_at_size_cex :
    (BitVec.new 8).is_set 8 = some false ∧
      ((BitVec.new 8).set 8).isSome = true ∧
      ((BitVec.new 8).unset 8).isSome = true ∧
      ((BitVec.new 8).flip 8).isSome = true := by
  decide

/-- C2 amended: the four operations fail exactly for `pos > size`; for
a vector of at least one bit every `pos ≤ size` — including the
boundary `pos == size` — silently succeeds. -/
theorem bounds_amended (size pos : Nat) :
    (size < pos →
      (BitVec.new size).is_set pos = none ∧ (BitVec.new size).set pos = none ∧
        (BitVec.new size).unset pos = none ∧ (BitVec.new size).flip pos = none) ∧
    (1 ≤ size → pos ≤ size →
      ((BitVec.new size).is_set pos).isSome = true ∧
        ((BitVec.new size).set pos).isSome = true ∧
        ((BitVec.new size).unset pos).isSome = true ∧
        ((BitVec.new size).flip pos).isSome = true) := by
  constructor
  · intro h
    refine ⟨?_, ?_, ?_, ?_⟩ <;>
      simp [BitVec.is_set, BitVec.set, BitVec.unset, BitVec.flip, BitVec.new, h]
  · intro hs hp
    have hg1 : ¬ pos > (BitVec.new size).size := by simp [BitVec.new]; omega
    have hg2 : pos / 8 < (BitVec.new size).bits.length := by
      simp [BitVec.new]; omega
    refine ⟨?_, ?_, ?_, ?_⟩ <;>
      simp [BitVec.is_set, BitVec.set, BitVec.unset, BitVec.flip, hg1, hg2]

/-- Witness for the amended C2 at `size = 8`: `pos = 9` fails in all
four operations, `pos = 8` succeeds in all four. -/
theorem bounds_amended_witness :
    (8 < 9 ∧
      ((BitVec.new 8).is_set 9 = none ∧ (BitVec.new 8).set 9 = none ∧
        (BitVec.new 8).unset 9 = none ∧ (BitVec.new 8).flip 9 = none)) ∧
    (1 ≤ 8 ∧ 8 ≤ 8 ∧
      (((BitVec.new 8).is_set 8).isSome = true ∧
        ((BitVec.new 8).set 8).isSome = true ∧
        ((BitVec.new 8).unset 8).isSome = true ∧
        ((BitVec.new 8).flip 8).isSome = true)) :=
  ⟨⟨by decide, (bounds_amended 8 9).1 (by decide)⟩,
    ⟨by decide, by decide, (bounds_amended 8 8).2 (by decide) (by decide)⟩⟩

/-- C3 counterexample: `BitVec::new(8)` does not hold
`ceil(8 / 8) = 1` byte — `get_bytes` returns 8 bytes, because `new`
allocates `vec![0u8; size]`. -/
theorem alloc_size_cex : ¬ (BitVec.new 8).get_bytes.length = (8 + 7) / 8 := by
  decide

/-- C3 amended: `BitVec::new(size_in_bits)` allocates a zero-initialized
buffer of exactly `size_in_bits` bytes (eight times the packed need),
and `get_bytes` returns that buffer. -/
theorem alloc_size_amended (size : Nat) :
    (BitVec.new size).get_bytes.length = size ∧
      ∀ j : Nat, (BitVec.new size).get_bytes.getD j 0 = 0 := by
  refine ⟨by simp [BitVec.new, BitVec.get_bytes], ?_⟩
  intro j
  simp only [BitVec.new, BitVec.get_bytes, List.getD_eq_getElem?_getD,
    List.getElem?_replicate]
  split <;> rfl

/-- C4: the seeded 32-bit hash of the byte sequence of "hello"
(`[104, 101, 108, 108, 111]`) with seed 0 is exactly 613153351. -/
theorem murmur_hello : murmur3_32_seeded [104, 101, 108, 108, 111] 0 = 613153351 := by
  decide

/-- C5: `BloomFilter::new` fails fast (produces no filter) whenever the
false positive rate is at most zero. -/
theorem new_rejects_nonpositive_fpr (n : Nat) (p : ℝ) (h : p ≤ 0) :
    BloomFilter.new n p = none := by
  simp [BloomFilter.new, h]

/-- Witness for C5 at `fpr = 0`. -/
theorem new_rejects_nonpositive_fpr_witness :
    (0 : ℝ) ≤ 0 ∧ BloomFilter.new 2 0 = none :=
  ⟨le_refl 0, new_rejects_nonpositive_fpr 2 0 (le_refl 0)⟩

/-- C6: for every `n ≥ 1` and `0 < p < 1`, both derived sizing values
`m` and `k` of `BloomFilter::new(n, p)` are at least 1. -/
theorem sizing_ge_one (n : Nat) (p : ℝ) (hn : 1 ≤ n) (hp0 : 0 < p) (hp1 : p < 1) :
    1 ≤ BloomFilter.bloomM n p ∧ 1 ≤ BloomFilter.bloomK n p := by
  have hlogp : Real.log p < 0 := Real.log_neg hp0 hp1
  have hlog2 : 0 < Real.log 2 := Real.log_pos (by norm_num)
  have hnR : (0 : ℝ) < n := by
    have : (1 : ℝ) ≤ n := by exact_mod_cast hn
    linarith
  have hnum : 0 < -1 * (n : ℝ) * Real.log p := by nlinarith
  have hden : 0 < Real.log 2 ^ 2 := by positivity
  have hm : 0 < (-1 * (n : ℝ) * Real.log p) / Real.log 2 ^ 2 := div_pos hnum hden
  have hmceil := Int.ceil_pos.mpr hm
  have hM : 1 ≤ BloomFilter.bloomM n p := by
    unfold BloomFilter.bloomM
    omega
  refine ⟨hM, ?_⟩
  have hmR : (0 : ℝ) < (BloomFilter.bloomM n p : ℝ) := by exact_mod_cast hM
  have hkpos : 0 < ((BloomFilter.bloomM n p : ℝ) / (n : ℝ)) * Real.log 2 :=
    mul_pos (div_pos hmR hnR) hlog2
  have hkceil := Int.ceil_pos.mpr hkpos
  unfold BloomFilter.bloomK
  omega

/-- Witness for C6 at `n = 1`, `p = 1/2`. -/
theorem sizing_ge_one_witness :
    1 ≤ (1 : Nat) ∧ (0 : ℝ) < 1/2 ∧ (1/2 : ℝ) < 1 ∧
      (1 ≤ BloomFilter.bloomM 1 (1/2) ∧ 1 ≤ BloomFilter.bloomK 1 (1/2)) :=
  ⟨le_refl 1, by norm_num, by norm_num,
    sizing_ge_one 1 (1/2) (le_refl 1) (by norm_num) (by norm_num)⟩

/-- C7: bit round trips on any reachable vector (buffer length equal to
the recorded size) at any strictly in-range position: `set` then
`is_set` answers `true`; `unset` then `is_set` answers `false`;
flipping twice restores the original vector. -/
theorem bit_roundtrip (v : BitVec) (pos : Nat) (hlen : v.bits.length = v.size)
    (hpos : pos < v.size) :
    (∃ w, v.set pos = some w ∧ w.is_set pos = some true) ∧
    (∃ w, v.unset pos = some w ∧ w.is_set pos = some false) ∧
    (∃ w w2, v.flip pos = some w ∧ w.flip pos = some w2 ∧ w2 = v) := by
  have h1 : pos ≤ v.size := Nat.le_of_lt hpos
  have h2 : pos / 8 < v.bits.length := by
    rw [hlen]
    have := Nat.div_le_self pos 8
    omega
  have hset : v.set pos = some _ := BitVec.set_eq_some_iff.mpr ⟨h1, h2, rfl⟩
  have hunset : v.unset pos = some _ := BitVec.unset_eq_some_iff.mpr ⟨h1, h2, rfl⟩
  refine ⟨⟨_, hset, BitVec.is_set_of_set hset⟩,
    ⟨_, hunset, BitVec.is_set_of_unset hunset⟩, ?_⟩
  have hflip : v.flip pos =
      some { bits := v.bits.set (pos / 8) (v.bits.getD (pos / 8) 0 ^^^ 1 <<< (pos % 8)),
             size := v.size } :=
    BitVec.flip_eq_some_iff.mpr ⟨h1, h2, rfl⟩
  have hflip2 :
      BitVec.flip
        { bits := v.bits.set (pos / 8) (v.bits.getD (pos / 8) 0 ^^^ 1 <<< (pos % 8)),
          size := v.size } pos =
      some { bits := (v.bits.set (pos / 8) (v.bits.getD (pos / 8) 0 ^^^ 1 <<< (pos % 8))).set
               (pos / 8)
               ((v.bits.set (pos / 8)
                   (v.bits.getD (pos / 8) 0 ^^^ 1 <<< (pos % 8))).getD (pos / 8) 0 ^^^
                 1 <<< (pos % 8)),
             size := v.size } :=
    BitVec.flip_eq_some_iff.mpr ⟨h1, by simpa using h2, rfl⟩
  exact ⟨_, _, hflip, hflip2, BitVec.flip_flip hflip hflip2⟩

/-- Witness for C7 on the fresh 8-bit vector at position 5. -/
theorem bit_roundtrip_witness :
    (BitVec.new 8).bits.length = (BitVec.new 8).size ∧ 5 < (BitVec.new 8).size ∧
      ((∃ w, (BitVec.new 8).set 5 = some w ∧ w.is_set 5 = some true) ∧
        (∃ w, (BitVec.new 8).unset 5 = some w ∧ w.is_set 5 = some false) ∧
        (∃ w w2, (BitVec.new 8).flip 5 = some w ∧ w.flip 5 = some w2 ∧
          w2 = BitVec.new 8)) :=
  ⟨by decide, by decide, bit_roundtrip (BitVec.new 8) 5 (by decide) (by decide)⟩

/-- C8: frame property.  On any reachable vector, mutating in-range
position `pos` leaves `is_set` of any other in-range position `q`
unchanged and leaves every byte other than byte `pos / 8` unchanged. -/
theorem bit_frame (v : BitVec) (pos q : Nat) (hlen : v.bits.length = v.size)
    (hpos : pos < v.size) (hq : q < v.size) (hne : q ≠ pos) :
    (∃ w, v.set pos = some w ∧ w.is_set q = v.is_set q ∧
      ∀ j : Nat, j ≠ pos / 8 → w.get_bytes.getD j 0 = v.get_bytes.getD j 0) ∧
    (∃ w, v.unset pos = some w ∧ w.is_set q = v.is_set q ∧
      ∀ j : Nat, j ≠ pos / 8 → w.get_bytes.getD j 0 = v.get_bytes.getD j 0) ∧
    (∃ w, v.flip pos = some w ∧ w.is_set q = v.is_set q ∧
      ∀ j : Nat, j ≠ pos / 8 → w.get_bytes.getD j 0 = v.get_bytes.getD j 0) := by
  have h1 : pos ≤ v.size := Nat.le_of_lt hpos
  have h2 : pos / 8 < v.bits.length := by
    rw [hlen]
    have := Nat.div_le_self pos 8
    omega
  have hset : v.set pos = some _ := BitVec.set_eq_some_iff.mpr ⟨h1, h2, rfl⟩
  have hunset : v.unset pos = some _ := BitVec.unset_eq_some_iff.mpr ⟨h1, h2, rfl⟩
  have hflip : v.flip pos = some _ := BitVec.flip_eq_some_iff.mpr ⟨h1, h2, rfl⟩
  refine ⟨⟨_, hset, BitVec.is_set_frame_of_set hset hne, ?_⟩,
    ⟨_, hunset, BitVec.is_set_frame_of_unset hunset hne, ?_⟩,
    ⟨_, hflip, BitVec.is_set_frame_of_flip hflip hne, ?_⟩⟩ <;>
  · intro j hj
    simp only [BitVec.get_bytes]
    exact list_getD_set_ne hj

/-- Witness for C8 on the vector with bytes `[5, 3]` and 16 recorded
bits, mutating position 3 and observing position 9. -/
theorem bit_frame_witness :
    ({ bits := [5, 3], size := 2 } : BitVec).bits.length =
        ({ bits := [5, 3], size := 2 } : BitVec).size ∧
      1 < ({ bits := [5, 3], size := 2 } : BitVec).size ∧
      0 < ({ bits := [5, 3], size := 2 } : BitVec).size ∧ (0 : Nat) ≠ 1 ∧
      ((∃ w, ({ bits := [5, 3], size := 2 } : BitVec).set 1 = some w ∧
          w.is_set 0 = ({ bits := [5, 3], size := 2 } : BitVec).is_set 0 ∧
          ∀ j : Nat, j ≠ 1 / 8 →
            w.get_bytes.getD j 0 =
              ({ bits := [5, 3], size := 2 } : BitVec).get_bytes.getD j 0) ∧
        (∃ w, ({ bits := [5, 3], size := 2 } : BitVec).unset 1 = some w ∧
          w.is_set 0 = ({ bits := [5, 3], size := 2 } : BitVec).is_set 0 ∧
          ∀ j : Nat, j ≠ 1 / 8 →
            w.get_bytes.getD j 0 =
              ({ bits := [5, 3], size := 2 } : BitVec).get_bytes.getD j 0) ∧
        (∃ w, ({ bits := [5, 3], size := 2 } : BitVec).flip 1 = some w ∧
          w.is_set 0 = ({ bits := [5, 3], size := 2 } : BitVec).is_set 0 ∧
          ∀ j : Nat, j ≠ 1 / 8 →
            w.get_bytes.getD j 0 =
              ({ bits := [5, 3], size := 2 } : BitVec).get_bytes.getD j 0)) :=
  ⟨by decide, by decide, by decide, by decide,
    bit_frame { bits := [5, 3], size := 2 } 1 0 (by decide) (by decide) (by decide)
      (by decide)⟩

/-- C9: `insert` is idempotent — if `f.insert v` completes with state
`f1`, inserting `v` again completes and leaves `f1` unchanged. -/
theorem insert_idempotent (f : BloomFilter) (v : List Nat) (f1 : BloomFilter)
    (h : f.insert v = some f1) : f1.insert v = some f1 := by
  obtain ⟨b1, hloop, rfl⟩ := BloomFilter.insert_eq_some_iff.mp h
  apply BloomFilter.insert_eq_some_iff.mpr
  refine ⟨b1, ?_, rfl⟩
  have hsz : b1.size = f.bits.size := (BloomFilter.insertLoop_dims _ _ _ _ hloop).1
  apply BloomFilter.insertLoop_fixed
  · intro hk
    cases hknat : f.num_hashes with
    | zero => rw [hknat] at hk; omega
    | succ rem =>
      rw [hknat] at hloop
      rw [hsz]
      exact BloomFilter.insertLoop_md hloop
  · intro j hj1 hj2
    have := BloomFilter.insertLoop_sets _ _ _ _ hloop j hj1 (by simpa using hj2)
    rwa [hsz]

/-- Witness for C9: inserting the byte `[116]` twice into a concrete
two-round filter. -/
theorem insert_idempotent_witness :
    ({ bits := BitVec.new 8, num_hashes := 2 } : BloomFilter).insert [116] =
        some { bits := { bits := [96, 0, 0, 0, 0, 0, 0, 0], size := 8 }, num_hashes := 2 } ∧
      ({ bits := { bits := [96, 0, 0, 0, 0, 0, 0, 0], size := 8 },
          num_hashes := 2 } : BloomFilter).insert [116] =
        some { bits := { bits := [96, 0, 0, 0, 0, 0, 0, 0], size := 8 }, num_hashes := 2 } :=
  ⟨by decide,
    insert_idempotent { bits := BitVec.new 8, num_hashes := 2 } [116]
      { bits := { bits := [96, 0, 0, 0, 0, 0, 0, 0], size := 8 }, num_hashes := 2 }
      (by decide)⟩

/-- C10: constructing with `expected_inserts = 0` and any `0 < p < 1`
yields a filter with 0 bits and 0 hash rounds, on which
`maybe_present` answers `true` for every value while `insert` is a
successful no-op. -/
theorem zero_expected_inserts (p : ℝ) (v : List Nat) (hp0 : 0 < p) (hp1 : p < 1) :
    ∃ f : BloomFilter, BloomFilter.new 0 p = some f ∧ f.bits.size = 0 ∧
      f.num_hashes = 0 ∧ f.maybe_present v = some true ∧ f.insert v = some f := by
  have hm : BloomFilter.bloomM 0 p = 0 := by
    unfold BloomFilter.bloomM
    norm_num
  have hk : BloomFilter.bloomK 0 p = 0 := by
    unfold BloomFilter.bloomK
    rw [hm]
    norm_num
  refine ⟨{ bits := BitVec.new 0, num_hashes := 0 }, ?_, rfl, rfl, rfl, rfl⟩
  simp [BloomFilter.new, not_le.mpr hp0, hm, hk]

/-- Witness for C10 at `p = 1/2` probing the byte `[0]`. -/
theorem zero_expected_inserts_witness :
    (0 : ℝ) < 1/2 ∧ (1/2 : ℝ) < 1 ∧
      ∃ f : BloomFilter, BloomFilter.new 0 (1/2) = some f ∧ f.bits.size = 0 ∧
        f.num_hashes = 0 ∧ f.maybe_present [0] = some true ∧ f.insert [0] = some f :=
  ⟨by norm_num, by norm_num,
    zero_expected_inserts (1/2) [0] (by norm_num) (by norm_num)⟩

end BloomRs
